import Mathlib

/-!
Verification development for the chapter-extraction core of `pdf_to_text.py`.

The five pure components of the source are shallowly embedded below:
numeral classifier (`is_chapter_title`, `roman_to_int`), outline walker
(`iterGo`, `collect_outline_entries`), chapter selector
(`pick_chapter_entries`), range builder (`build_chapter_ranges`) and
selection parsing (`parse_selection`).  Strings are modelled as `List Char`
restricted to ASCII (the Python regexes are Unicode-aware; every property
considered here concerns ASCII titles and ASCII user input).
-/

set_option maxHeartbeats 1000000

namespace PdfToText

/-! ### Character classes used by the source regexes

The source compiles three regexes (lines 62-64):
`^\s*(?:chapter|chap\.?)[\s.-]*0*([0-9]+)\b`,
`^\s*(?:chapter|chap\.?)[\s.-]*([ivxlcdm]+)\b`,
`^\s*(?:chapter|chap\.?)[\s.-]*([A-Za-z]+)\b`, all with `re.IGNORECASE`. -/

def isSpaceChar (c : Char) : Bool :=
  c = ' ' || c = '\t' || c = '\n' || c = '\r' || c = '\x0b' || c = '\x0c'

def isWordChar (c : Char) : Bool :=
  c.isAlphanum || c = '_'

def isDigitChar (c : Char) : Bool := c.isDigit

def isRomanChar (c : Char) : Bool :=
  let l := c.toLower
  l = 'i' || l = 'v' || l = 'x' || l = 'l' || l = 'c' || l = 'd' || l = 'm'

def isLetterChar (c : Char) : Bool := c.isAlpha

/-- Split off the longest run of characters satisfying `p`. -/
def takeRun (p : Char → Bool) : List Char → List Char × List Char
  | [] => ([], [])
  | c :: cs =>
    if p c then
      let r := takeRun p cs
      (c :: r.1, r.2)
    else ([], c :: cs)

/-- Case-insensitive literal match, returning the remainder on success. -/
def litCI : List Char → List Char → Option (List Char)
  | [], s => some s
  | _ :: _, [] => none
  | p :: ps, c :: cs => if c.toLower = p.toLower then litCI ps cs else none

/-- The possible remainders after `^\s*(?:chapter|chap\.?)`, in the order the
regex engine backtracks through them.  `\s*` is greedy; since no whitespace
character can begin `chapter`/`chap`, consuming the maximal whitespace run is
the only branch that can succeed, so it is taken deterministically. -/
def chapterHeads (s : List Char) : List (List Char) :=
  let s1 := (takeRun isSpaceChar s).2
  ((litCI "chapter".data s1).toList ++ (litCI "chap.".data s1).toList)
    ++ (litCI "chap".data s1).toList

/-- Characters of the separator class `[\s.-]`. -/
def isSepChar (c : Char) : Bool := isSpaceChar c || c = '.' || c = '-'

/-- Remaining pattern after the head literal: `[\s.-]*` then a nonempty
capture of class `cl`, then `\b`.  `[\s.-]*` is greedy and its class is
disjoint from every capture class used below, so maximal consumption is the
only viable branch; likewise the greedy capture can only match the maximal
class run, because shortening it places the boundary between two word
characters.  (For the digit pattern the source writes `0*([0-9]+)`; splitting
the digit run between `0*` and the capture changes only the unused capture
text, never whether the pattern matches.) -/
def tailCapture (cl : Char → Bool) (s : List Char) : Option (List Char) :=
  if (takeRun cl (takeRun isSepChar s).2).1.isEmpty then none
  else
    match (takeRun cl (takeRun isSepChar s).2).2 with
    | [] => some (takeRun cl (takeRun isSepChar s).2).1
    | c :: _ =>
      if isWordChar c then none
      else some (takeRun cl (takeRun isSepChar s).2).1

/-- `re.match` of one of the three chapter regexes: the captured group of the
first backtracking branch that succeeds, or `none` when the regex does not
match. -/
def reCapture (cl : Char → Bool) (t : List Char) : Option (List Char) :=
  (chapterHeads t).findSome? (tailCapture cl)

/-! ### `roman_to_int` (source lines 82-98) -/

/-- The `roman_map` dictionary lookup; `none` models a `KeyError`. -/
def romanVal (c : Char) : Option Int :=
  if c = 'i' then some 1
  else if c = 'v' then some 5
  else if c = 'x' then some 10
  else if c = 'l' then some 50
  else if c = 'c' then some 100
  else if c = 'd' then some 500
  else if c = 'm' then some 1000
  else none

/-- The loop of `roman_to_int`, iterating over the (already reversed,
lowered) characters with accumulators `total` and `prev`.  A `KeyError`
anywhere aborts the whole call with `None`. -/
def romanGo : List Char → Int → Int → Option Int
  | [], total, _ => some total
  | c :: cs, total, prev =>
    match romanVal c with
    | none => none
    | some current =>
      if current < prev then romanGo cs (total - current) prev
      else romanGo cs (total + current) current

def roman_to_int (value : List Char) : Option Int :=
  romanGo ((value.map Char.toLower).reverse) 0 0

/-- The `NUMBER_WORDS` dictionary keys (values are never used). -/
def NUMBER_WORDS : List (List Char) :=
  ["zero".data, "one".data, "two".data, "three".data, "four".data,
   "five".data, "six".data, "seven".data, "eight".data, "nine".data,
   "ten".data, "eleven".data, "twelve".data, "thirteen".data,
   "fourteen".data, "fifteen".data, "sixteen".data, "seventeen".data,
   "eighteen".data, "nineteen".data, "twenty".data]

/-- Third rule of `is_chapter_title`: the word regex matches and the lowered
capture is one of the number words. -/
def wordAccepts (t : List Char) : Bool :=
  match reCapture isLetterChar t with
  | some w => NUMBER_WORDS.contains (w.map Char.toLower)
  | none => false

/-- `is_chapter_title` (source lines 101-114).  Note the Python truthiness
test `if converted:`: both `None` and `0` fall through to the word rule,
while any nonzero integer (negative included) returns `True`. -/
def is_chapter_title (title : List Char) : Bool :=
  if (reCapture isDigitChar title).isSome then true
  else
    match reCapture isRomanChar title with
    | some g =>
      match roman_to_int g with
      | some v => if v ≠ 0 then true else wordAccepts title
      | none => wordAccepts title
    | none => wordAccepts title

/-! ### Data model (source lines 20-36) -/

/-- `ChapterRange` dataclass: inclusive 1-based page range. -/
structure ChapterRange where
  title : List Char
  start_page : Int
  end_page : Int
deriving DecidableEq

/-- `OutlineEntry` dataclass: bookmark title, 0-based page index, depth. -/
structure OutlineEntry where
  title : List Char
  page_index : Int
  depth : Nat
deriving DecidableEq

/-! ### Sorting by `page_index`

Python's `sorted(entries, key=lambda e: e.page_index)` and
`entries.sort(key=...)` are stable sorts by the key; a stable sort by a total
preorder is extensionally unique, so the stable `insertionSort` below computes
exactly the same list. -/

def entLE (a b : OutlineEntry) : Prop := a.page_index ≤ b.page_index

instance : DecidableRel entLE := fun a b =>
  inferInstanceAs (Decidable (a.page_index ≤ b.page_index))

instance : IsTotal OutlineEntry entLE := ⟨fun a b => le_total a.page_index b.page_index⟩

instance : IsTrans OutlineEntry entLE := ⟨fun _ _ _ h1 h2 => le_trans h1 h2⟩

def sortEntries (l : List OutlineEntry) : List OutlineEntry :=
  List.insertionSort entLE l

/-! ### Range builder `build_chapter_ranges` (source lines 215-229) -/

/-- The enumeration loop of `build_chapter_ranges` over the already-sorted
entry list: each entry contributes `start_page = page_index + 1` and
`end_page = end_index + 1`, where `end_index` is the next entry's
`page_index - 1`, or `total_pages - 1` for the last entry. -/
def buildSorted (total_pages : Int) : List OutlineEntry → List ChapterRange
  | [] => []
  | e :: rest =>
    let end_index : Int :=
      match rest with
      | e2 :: _ => e2.page_index - 1
      | [] => total_pages - 1
    ⟨e.title, e.page_index + 1, end_index + 1⟩ :: buildSorted total_pages rest

def build_chapter_ranges (entries : List OutlineEntry) (total_pages : Int) :
    List ChapterRange :=
  if entries.isEmpty then []
  else buildSorted total_pages (sortEntries entries)

/-! ### Chapter selector `pick_chapter_entries` (source lines 203-212) -/

/-- `min(entry.depth for entry in entries)` on a nonempty list. -/
def minDepthOf (e : OutlineEntry) (rest : List OutlineEntry) : Nat :=
  rest.foldl (fun acc x => min acc x.depth) e.depth

def pick_chapter_entries (entries : List OutlineEntry) : List OutlineEntry :=
  let chapters := entries.filter (fun e => is_chapter_title e.title)
  if !chapters.isEmpty then chapters
  else
    match entries with
    | [] => []
    | e :: rest =>
      (e :: rest).filter (fun x => decide (x.depth = minDepthOf e rest))

theorem pick_nil : pick_chapter_entries [] = [] := rfl

/-! ### Selection parsing `parse_selection` (source lines 285-308) -/

/-- `selection.replace(" ", "")`: removes space characters only. -/
def removeSpaces (s : List Char) : List Char := s.filter (fun c => c ≠ ' ')

/-- `str.split(",")`: empty input yields one empty token, consecutive commas
yield empty tokens. -/
def splitOnComma : List Char → List (List Char)
  | [] => [[]]
  | c :: cs =>
    if c = ',' then [] :: splitOnComma cs
    else
      match splitOnComma cs with
      | t :: ts => (c :: t) :: ts
      | [] => [[c]]

/-- `token.split("-", 1)` guarded by `"-" in token`: `some` exactly when the
token contains a hyphen, splitting at the first one. -/
def splitFirstHyphen : List Char → Option (List Char × List Char)
  | [] => none
  | c :: cs =>
    if c = '-' then some ([], cs)
    else (splitFirstHyphen cs).map (fun p => (c :: p.1, p.2))

/-- Digit body of Python `int(str)`: digits with single underscores allowed
between digits (PEP 515), at least one digit, no leading, trailing or doubled
underscore. -/
def pyIntDigits : List Char → Option Int
  | [] => none
  | c :: cs =>
    if isDigitChar c then
      pyIntGo (Int.ofNat (c.toNat - '0'.toNat)) cs
    else none
where
  pyIntGo (acc : Int) : List Char → Option Int
    | [] => some acc
    | '_' :: c :: cs =>
      if isDigitChar c then pyIntGo (acc * 10 + Int.ofNat (c.toNat - '0'.toNat)) cs
      else none
    | ['_'] => none
    | c :: cs =>
      if isDigitChar c then pyIntGo (acc * 10 + Int.ofNat (c.toNat - '0'.toNat)) cs
      else none

/-- `str.strip()`: remove leading and trailing whitespace. -/
def stripEnds (t : List Char) : List Char :=
  ((takeRun isSpaceChar t).2.reverse |> takeRun isSpaceChar).2.reverse

/-- Python `int(str)` on ASCII text: optional surrounding whitespace, an
optional sign, then digits; `none` models a `ValueError`. -/
def pyInt (s : List Char) : Option Int :=
  match stripEnds s with
  | '+' :: rest => pyIntDigits rest
  | '-' :: rest => (pyIntDigits rest).map Int.neg
  | rest => pyIntDigits rest

deriving instance DecidableEq for Except

/-- Error messages raised by `parse_selection` (source lines 300, 302, 307). -/
def msgUse : String := "Use chapter numbers like 1 or 1-3."

def msgPositive : String := "Chapter numbers must be positive."

def msgNoNumbers : String := "No chapter numbers detected."

/-- The integer extraction of one (nonempty) token: split at the first
hyphen and `int()` both parts, or `int()` the whole token for both bounds;
a `ValueError` from `int()` becomes the "use chapter numbers" error. -/
def tokenInts (t : List Char) : Except String (Int × Int) :=
  match splitFirstHyphen t with
  | some (a, b) =>
    match pyInt a, pyInt b with
    | some s, some e => Except.ok (s, e)
    | _, _ => Except.error msgUse
  | none =>
    match pyInt t with
    | some n => Except.ok (n, n)
    | none => Except.error msgUse

/-- One iteration of the token loop: extract the integers, reject a value
below 1, silently swap a reversed pair. -/
def parseToken (t : List Char) : Except String (Int × Int) :=
  match tokenInts t with
  | Except.error e => Except.error e
  | Except.ok se =>
    if se.1 < 1 ∨ se.2 < 1 then Except.error msgPositive
    else if se.1 > se.2 then Except.ok (se.2, se.1)
    else Except.ok se

/-- The token loop of `parse_selection`, accumulating ranges in token order,
skipping empty tokens, and propagating the first `ValueError`. -/
def parseTokens : List (List Char) → Except String (List (Int × Int))
  | [] => Except.ok []
  | t :: ts =>
    if t.isEmpty then parseTokens ts
    else
      match parseToken t with
      | Except.error e => Except.error e
      | Except.ok p =>
        match parseTokens ts with
        | Except.error e => Except.error e
        | Except.ok rest => Except.ok (p :: rest)

def parse_selection (selection : List Char) : Except String (List (Int × Int)) :=
  match parseTokens (splitOnComma (removeSpaces selection)) with
  | Except.error e => Except.error e
  | Except.ok ranges =>
    if ranges.isEmpty then Except.error msgNoNumbers
    else Except.ok ranges

/-! ### Outline walker (source lines 146-200)

`_iter_outline_items` walks an arbitrary object graph, keyed by `id(item)`.
The graph is embedded as a finite store of node identities: an item of the
iterable is either a reference to a node identity or a nested list grouping,
and cycles arise when a node's children reference an ancestor identity. -/

/-- An item of the outline iterable: a heading node referenced by its
identity (`id(item)` in the source), or a nested `list` grouping. -/
inductive OItem where
  | ref (i : Nat)
  | group (items : List OItem)

/-- A heading node as the walker sees it: optional `title` and `children`
attributes.  A `children` callable is modelled by the collection it returns;
a callable raising `TypeError`, a missing attribute and a falsy attribute are
all modelled as `none` (each makes the source skip the children). -/
structure ONode where
  title : Option (List Char) := none
  children : Option (List OItem) := none

/-- Look up a node identity in the store; identities outside the store behave
as attribute-less objects. -/
def getNode (store : List (Nat × ONode)) (i : Nat) : ONode :=
  match store.find? (fun p => p.1 == i) with
  | some p => p.2
  | none => {}

mutual

def itemSize : OItem → Nat
  | .ref _ => 1
  | .group items => 1 + itemsSize items

def itemsSize : List OItem → Nat
  | [] => 0
  | i :: is => itemSize i + itemsSize is

end

def agendaSize : List (OItem × Nat) → Nat
  | [] => 0
  | (i, _) :: rest => itemSize i + agendaSize rest

theorem agendaSize_append (l1 l2 : List (OItem × Nat)) :
    agendaSize (l1 ++ l2) = agendaSize l1 + agendaSize l2 := by
  induction l1 with
  | nil => simp [agendaSize]
  | cons p rest ih =>
    obtain ⟨i, d⟩ := p
    simp [agendaSize, ih]
    omega

theorem agendaSize_map (g : List OItem) (d : Nat) :
    agendaSize (g.map (fun i => (i, d))) = itemsSize g := by
  induction g with
  | nil => simp [agendaSize, itemsSize]
  | cons i is ih => simp [agendaSize, itemsSize, ih]

/-- Number of store identities not yet in the visited list; the walker's
termination measure. -/
def unseenCount (store : List (Nat × ONode)) (seen : List Nat) : Nat :=
  ((store.map Prod.fst).filter (fun i => decide (i ∉ seen))).length

theorem unseenFilter_sublist (keys : List Nat) (i0 : Nat) (seen : List Nat) :
    (keys.filter (fun i => decide (i ∉ i0 :: seen))).Sublist
      (keys.filter (fun i => decide (i ∉ seen))) := by
  apply List.monotone_filter_right
  intro a ha
  simp only [decide_eq_true_eq, List.mem_cons, not_or] at ha ⊢
  exact ha.2

theorem unseenCount_cons_le (store : List (Nat × ONode)) (i0 : Nat) (seen : List Nat) :
    unseenCount store (i0 :: seen) ≤ unseenCount store seen :=
  (unseenFilter_sublist _ i0 seen).length_le

theorem unseenCount_cons_lt (store : List (Nat × ONode)) (i0 : Nat) (seen : List Nat)
    (hmem : i0 ∈ store.map Prod.fst) (hns : i0 ∉ seen) :
    unseenCount store (i0 :: seen) < unseenCount store seen := by
  have hsub := unseenFilter_sublist (store.map Prod.fst) i0 seen
  rcases Nat.lt_or_ge (unseenCount store (i0 :: seen)) (unseenCount store seen) with h | h
  · exact h
  · exfalso
    have heq : (unseenCount store (i0 :: seen)) = unseenCount store seen :=
      le_antisymm (unseenCount_cons_le store i0 seen) h
    have hlists := hsub.eq_of_length heq
    have hin : i0 ∈ (store.map Prod.fst).filter (fun i => decide (i ∉ seen)) := by
      simp only [List.mem_filter, decide_eq_true_eq]
      exact ⟨hmem, hns⟩
    rw [← hlists] at hin
    simp at hin

theorem getNode_children_some_mem (store : List (Nat × ONode)) (i : Nat)
    {l : List OItem} (h : (getNode store i).children = some l) :
    i ∈ store.map Prod.fst := by
  unfold getNode at h
  cases hfind : store.find? (fun p => p.1 == i) with
  | none => rw [hfind] at h; simp [ONode.children] at h
  | some p =>
    rw [hfind] at h
    have hp := List.find?_some hfind
    have hmem := List.mem_of_find?_eq_some hfind
    have : p.1 = i := by simpa using hp
    subst this
    exact List.mem_map.mpr ⟨p, hmem, rfl⟩

theorem lex_of_le_of_lt {a1 a2 b1 b2 : Nat} (h1 : a1 ≤ a2) (h2 : b1 < b2) :
    Prod.Lex (· < ·) (· < ·) (a1, b1) (a2, b2) := by
  rcases Nat.lt_or_ge a1 a2 with h | h
  · exact Prod.Lex.left _ _ h
  · have : a1 = a2 := le_antisymm h1 h
    subst this
    exact Prod.Lex.right _ h2

/-- The agenda contributed by one visited node's children, to be iterated at
depth `d`: empty when the `children` attribute is absent or falsy (or the
producer call failed), otherwise the child items.  An empty `some` list also
contributes nothing, exactly as the source's `if child_items:` re-check. -/
def childAgenda (store : List (Nat × ONode)) (i : Nat) (d : Nat) :
    List (OItem × Nat) :=
  match (getNode store i).children with
  | none => []
  | some l => l.map (fun x => (x, d))

/-- The generator `_iter_outline_items`, turned into a total function.  The
agenda holds the items still to be iterated, each with the depth it is to be
iterated at; the returned pair is the list of yielded `(depth, identity)`
pairs in generator order, together with the final visited list.  A nested
list is iterated at the same depth without being yielded; a reference whose
identity was already visited is skipped; otherwise the identity is marked
visited, the pair is yielded, and the children are walked at `depth + 1`
before the rest of the agenda. -/
def iterGo (store : List (Nat × ONode)) :
    List (OItem × Nat) → List Nat → List (Nat × Nat) × List Nat
  | [], seen => ([], seen)
  | (OItem.group g, d) :: rest, seen =>
    iterGo store (g.map (fun i => (i, d)) ++ rest) seen
  | (OItem.ref i, d) :: rest, seen =>
    if hseen : i ∈ seen then iterGo store rest seen
    else
      let r := iterGo store (childAgenda store i (d + 1) ++ rest) (i :: seen)
      ((d, i) :: r.1, r.2)
termination_by agenda seen => (unseenCount store seen, agendaSize agenda)
decreasing_by
  · apply Prod.Lex.right
    simp only [agendaSize, agendaSize_append, agendaSize_map, itemSize]
    omega
  · apply Prod.Lex.right
    simp only [agendaSize, itemSize]
    omega
  · rcases hch : (getNode store i).children with _ | l
    · apply lex_of_le_of_lt (unseenCount_cons_le store i seen)
      simp only [childAgenda, hch, List.nil_append, agendaSize, itemSize]
      omega
    · exact Prod.Lex.left _ _
        (unseenCount_cons_lt store i seen (getNode_children_some_mem store i hch) hseen)

/-- `_iter_outline_items(outline)`: fresh empty visited set, depth 0. -/
def walkPairs (store : List (Nat × ONode)) (outline : List OItem) :
    List (Nat × Nat) :=
  (iterGo store (outline.map (fun i => (i, 0))) []).1

/-- The per-item body of the loop in `collect_outline_entries`: falsy titles
are skipped; a failing `get_destination_page_number` call (modelled by
`resolve` returning `none`) silently skips that entry. -/
def emitEntry (store : List (Nat × ONode)) (resolve : Nat → Option Int)
    (p : Nat × Nat) : Option OutlineEntry :=
  match (getNode store p.2).title with
  | none => none
  | some [] => none
  | some t =>
    match resolve p.2 with
    | none => none
    | some pg => some ⟨stripEnds t, pg, p.1⟩

/-- `collect_outline_entries` (source lines 181-200): walk the outline,
build entries from titled resolvable nodes, then sort by `page_index`. -/
def collect_outline_entries (store : List (Nat × ONode))
    (resolve : Nat → Option Int) (outline : List OItem) : List OutlineEntry :=
  sortEntries ((walkPairs store outline).filterMap (emitEntry store resolve))

/-! ### General lemmas about the range builder -/

theorem buildSorted_cons (total : Int) (e0 e1 : OutlineEntry) (rest : List OutlineEntry) :
    buildSorted total (e0 :: e1 :: rest) =
      ⟨e0.title, e0.page_index + 1, e1.page_index - 1 + 1⟩ ::
        buildSorted total (e1 :: rest) := rfl

theorem buildSorted_single (total : Int) (e0 : OutlineEntry) :
    buildSorted total [e0] = [⟨e0.title, e0.page_index + 1, total - 1 + 1⟩] := rfl

theorem buildSorted_length (total : Int) :
    ∀ es : List OutlineEntry, (buildSorted total es).length = es.length := by
  intro es
  induction es with
  | nil => rfl
  | cons e rest ih =>
    cases rest with
    | nil => rfl
    | cons e1 rest' =>
      rw [buildSorted_cons]
      simp [ih]

theorem buildSorted_getElem? (total : Int) :
    ∀ (es : List OutlineEntry) (i : Nat) (e : OutlineEntry),
      es[i]? = some e →
      (buildSorted total es)[i]? =
        some ⟨e.title, e.page_index + 1,
          (match es[i + 1]? with
           | some e2 => e2.page_index - 1
           | none => total - 1) + 1⟩ := by
  intro es
  induction es with
  | nil => intro i e h; simp at h
  | cons e0 rest ih =>
    intro i e h
    cases i with
    | zero =>
      simp only [List.getElem?_cons_zero, Option.some_inj] at h
      subst h
      cases rest with
      | nil => simp [buildSorted_single]
      | cons e1 rest' => simp [buildSorted_cons]
    | succ n =>
      simp only [List.getElem?_cons_succ] at h
      have hn := ih n e h
      cases rest with
      | nil => simp at h
      | cons e1 rest' =>
        rw [buildSorted_cons]
        simpa using hn

theorem buildSorted_start_mem (total : Int) :
    ∀ (es : List OutlineEntry) (r : ChapterRange), r ∈ buildSorted total es →
      ∃ e ∈ es, r.start_page = e.page_index + 1 := by
  intro es
  induction es with
  | nil => intro r hr; simp [buildSorted] at hr
  | cons e0 rest ih =>
    intro r hr
    cases rest with
    | nil =>
      rw [buildSorted_single] at hr
      simp at hr
      exact ⟨e0, by simp, by rw [hr]⟩
    | cons e1 rest' =>
      rw [buildSorted_cons] at hr
      rcases List.mem_cons.mp hr with rfl | hmem
      · exact ⟨e0, by simp, rfl⟩
      · obtain ⟨e, he, hre⟩ := ih r hmem
        exact ⟨e, List.mem_cons_of_mem _ he, hre⟩

theorem buildSorted_pairwise (total : Int) :
    ∀ es : List OutlineEntry, List.Pairwise entLE es →
      List.Pairwise
        (fun a b => a.start_page ≤ b.start_page ∧ a.end_page < b.start_page)
        (buildSorted total es) := by
  intro es
  induction es with
  | nil => intro _; simp [buildSorted]
  | cons e0 rest ih =>
    intro hp
    rw [List.pairwise_cons] at hp
    obtain ⟨h0, hrest⟩ := hp
    cases rest with
    | nil => simp [buildSorted_single]
    | cons e1 rest' =>
      rw [buildSorted_cons, List.pairwise_cons]
      refine ⟨?_, ih hrest⟩
      intro r' hr'
      obtain ⟨e', he', hs'⟩ := buildSorted_start_mem total _ r' hr'
      have h0' : e0.page_index ≤ e'.page_index := h0 e' he'
      have h1' : e1.page_index ≤ e'.page_index := by
        rcases List.mem_cons.mp he' with rfl | hmem
        · exact le_refl _
        · exact (List.pairwise_cons.mp hrest).1 e' hmem
      constructor
      · simp only [hs']
        omega
      · simp only [hs']
        omega

theorem buildSorted_cover (total : Int) :
    ∀ (rest : List OutlineEntry) (e0 : OutlineEntry),
      List.Pairwise entLE (e0 :: rest) →
      (∀ e ∈ e0 :: rest, e.page_index ≤ total) →
      ∀ q : Int, (e0.page_index + 1 ≤ q ∧ q ≤ total) ↔
        ∃ r ∈ buildSorted total (e0 :: rest), r.start_page ≤ q ∧ q ≤ r.end_page := by
  intro rest
  induction rest with
  | nil =>
    intro e0 _ _ q
    rw [buildSorted_single]
    constructor
    · rintro ⟨h1, h2⟩
      refine ⟨⟨e0.title, e0.page_index + 1, total - 1 + 1⟩, by simp, ?_, ?_⟩
      · show e0.page_index + 1 ≤ q
        omega
      · show q ≤ total - 1 + 1
        omega
    · rintro ⟨r, hr, h1, h2⟩
      simp at hr
      subst hr
      simp at h1 h2
      omega
  | cons e1 rest' ih =>
    intro e0 hp hb q
    rw [List.pairwise_cons] at hp
    obtain ⟨h0, hp'⟩ := hp
    have hb' : ∀ e ∈ e1 :: rest', e.page_index ≤ total :=
      fun e he => hb e (List.mem_cons_of_mem _ he)
    have ihq := ih e1 hp' hb' q
    have he1t : e1.page_index ≤ total := hb' e1 (by simp)
    have h01 : e0.page_index ≤ e1.page_index := h0 e1 (by simp)
    rw [buildSorted_cons]
    constructor
    · rintro ⟨h1, h2⟩
      by_cases hq : q ≤ e1.page_index
      · refine ⟨⟨e0.title, e0.page_index + 1, e1.page_index - 1 + 1⟩, by simp, ?_⟩
        simp
        omega
      · obtain ⟨r, hr, hr1, hr2⟩ := ihq.mp ⟨by omega, h2⟩
        exact ⟨r, List.mem_cons_of_mem _ hr, hr1, hr2⟩
    · rintro ⟨r, hr, hr1, hr2⟩
      rcases List.mem_cons.mp hr with rfl | hmem
      · simp at hr1 hr2
        omega
      · have := ihq.mpr ⟨r, hmem, hr1, hr2⟩
        omega

theorem buildSorted_getLast (total : Int) :
    ∀ es : List OutlineEntry, es ≠ [] →
      ∃ r, (buildSorted total es).getLast? = some r ∧ r.end_page = total := by
  intro es
  induction es with
  | nil => intro h; exact absurd rfl h
  | cons e0 rest ih =>
    intro _
    cases rest with
    | nil =>
      rw [buildSorted_single]
      refine ⟨⟨e0.title, e0.page_index + 1, total - 1 + 1⟩, rfl, ?_⟩
      show total - 1 + 1 = total
      omega
    | cons e1 rest' =>
      obtain ⟨r, hr, hre⟩ := ih (by simp)
      refine ⟨r, ?_, hre⟩
      rw [buildSorted_cons]
      cases rest' with
      | nil =>
        rw [buildSorted_single] at hr ⊢
        rw [List.getLast?_cons_cons]
        exact hr
      | cons e2 rest'' =>
        rw [buildSorted_cons] at hr ⊢
        rw [List.getLast?_cons_cons]
        exact hr

theorem buildSorted_chain (total : Int) :
    ∀ es : List OutlineEntry,
      List.Chain' (fun a b => b.start_page = a.end_page + 1)
        (buildSorted total es) := by
  intro es
  induction es with
  | nil => simp [buildSorted]
  | cons e0 rest ih =>
    cases rest with
    | nil => simp [buildSorted_single]
    | cons e1 rest' =>
      rw [buildSorted_cons]
      cases rest' with
      | nil =>
        rw [buildSorted_single] at ih ⊢
        rw [List.chain'_cons]
        refine ⟨?_, ih⟩
        show e1.page_index + 1 = e1.page_index - 1 + 1 + 1
        omega
      | cons e2 rest'' =>
        rw [buildSorted_cons] at ih ⊢
        rw [List.chain'_cons]
        refine ⟨?_, ih⟩
        show e1.page_index + 1 = e1.page_index - 1 + 1 + 1
        omega

/-! ### Lemmas about the stable sort -/

theorem sortEntries_perm (l : List OutlineEntry) : (sortEntries l).Perm l :=
  List.perm_insertionSort entLE l

theorem sortEntries_sorted (l : List OutlineEntry) :
    List.Pairwise entLE (sortEntries l) :=
  List.sorted_insertionSort entLE l

theorem sortEntries_ne_nil {entries : List OutlineEntry} (h : entries ≠ []) :
    sortEntries entries ≠ [] := by
  intro hc
  apply h
  have hlen := (sortEntries_perm entries).length_eq
  rw [hc] at hlen
  exact List.length_eq_zero.mp hlen.symm

theorem sorted_head_min (e0 : OutlineEntry) (rest : List OutlineEntry)
    (h : List.Pairwise entLE (e0 :: rest)) :
    ∀ e ∈ e0 :: rest, e0.page_index ≤ e.page_index := by
  intro e he
  rcases List.mem_cons.mp he with rfl | hmem
  · exact le_refl _
  · exact (List.pairwise_cons.mp h).1 e hmem

theorem build_eq_buildSorted (entries : List OutlineEntry) (total : Int)
    (h : entries ≠ []) :
    build_chapter_ranges entries total = buildSorted total (sortEntries entries) := by
  simp [build_chapter_ranges, List.isEmpty_iff, h]

theorem buildSorted_head (total : Int) (e0 : OutlineEntry) (rest : List OutlineEntry) :
    ((buildSorted total (e0 :: rest)).head?).map ChapterRange.start_page =
      some (e0.page_index + 1) := by
  cases rest with
  | nil => rw [buildSorted_single]; rfl
  | cons e1 rest' => rw [buildSorted_cons]; rfl

/-! ### Claims about the range builder -/

def demoEntries : List OutlineEntry :=
  [⟨"A".data, 0, 0⟩, ⟨"B".data, 50, 0⟩, ⟨"C".data, 120, 0⟩]

/-- C1 (counterexample): the claimed formula `end_page = position(i+1) - 1`
fails on the code.  For entries at positions 0 and 50 with 200 pages, the
first emitted range has `end_page = 50`, not `50 - 1 = 49` (the source
computes `end_index = position(i+1) - 1` as a 0-based index and emits
`end_page = end_index + 1`). -/
theorem C1_end_page_formula_cex :
    ((build_chapter_ranges [⟨"A".data, 0, 0⟩, ⟨"B".data, 50, 0⟩] 200)[0]?).map
        ChapterRange.end_page = some 50 ∧
    ¬ (((build_chapter_ranges [⟨"A".data, 0, 0⟩, ⟨"B".data, 50, 0⟩] 200)[0]?).map
        ChapterRange.end_page = some (50 - 1)) := by
  constructor
  · decide
  · decide

/-- C1 (amended): `build_chapter_ranges` first sorts the entries by
`position` ascending (a stable permutation of the input); the range emitted
for 0-based index `i` of the sorted sequence has
`start_page = position(i) + 1` and `end_page = position(i+1)` (that is,
`(position(i+1) - 1) + 1`) when a next entry exists, else
`end_page = total_pages`; and an empty entry sequence yields an empty
result. -/
theorem C1_range_builder_boundaries (entries : List OutlineEntry) (total : Int) :
    (sortEntries entries).Perm entries ∧
    List.Pairwise entLE (sortEntries entries) ∧
    build_chapter_ranges [] total = [] ∧
    (build_chapter_ranges entries total).length = entries.length ∧
    ∀ (i : Nat) (e : OutlineEntry), (sortEntries entries)[i]? = some e →
      (build_chapter_ranges entries total)[i]? =
        some ⟨e.title, e.page_index + 1,
          match (sortEntries entries)[i + 1]? with
          | some e2 => e2.page_index
          | none => total⟩ := by
  refine ⟨sortEntries_perm entries, sortEntries_sorted entries, rfl, ?_, ?_⟩
  · by_cases hne : entries = []
    · subst hne; rfl
    · rw [build_eq_buildSorted entries total hne, buildSorted_length]
      exact (sortEntries_perm entries).length_eq
  · intro i e h
    have hne : entries ≠ [] := by
      intro hc
      subst hc
      simp [sortEntries, List.insertionSort] at h
    rw [build_eq_buildSorted entries total hne]
    have hidx := buildSorted_getElem? total (sortEntries entries) i e h
    cases h2 : (sortEntries entries)[i + 1]? with
    | some e2 =>
      rw [h2] at hidx
      rw [hidx]
      have h3 : e2.page_index - 1 + 1 = e2.page_index := by omega
      rw [h3]
    | none =>
      rw [h2] at hidx
      rw [hidx]
      have h3 : total - 1 + 1 = total := by omega
      rw [h3]

/-- C1 (witness): the amended theorem applied to the spec's own example,
`build([pos 0, pos 50, pos 120], total_pages = 200)`. -/
theorem C1_range_builder_boundaries_w :
    (build_chapter_ranges demoEntries 200)[0]? =
      some ⟨"A".data, (0 : Int) + 1, 50⟩ :=
  ((C1_range_builder_boundaries demoEntries 200).2.2.2.2 0 ⟨"A".data, 0, 0⟩
    (by decide)).trans (by decide)

/-- C2 (counterexample): the claimed universal coverage of `[1, total_pages]`
fails when no entry sits at position 0: a single entry at position 5 with 10
total pages yields the single range `[6, 10]`, which does not cover page 1. -/
theorem C2_coverage_cex :
    build_chapter_ranges [⟨"A".data, 5, 0⟩] 10 = [⟨"A".data, 6, 10⟩] ∧
    ¬ ∃ r ∈ build_chapter_ranges [⟨"A".data, 5, 0⟩] 10,
        r.start_page ≤ 1 ∧ (1 : Int) ≤ r.end_page := by
  constructor
  · decide
  · decide

/-- C2 (amended): produced ranges are always ordered by `start_page`
ascending and pairwise non-overlapping (each range even ends strictly before
the next starts); for a non-empty input the final range ends exactly at
`total_pages`; and the union of the ranges is exactly `[1, total_pages]`
provided every position lies in `[0, total_pages]` and some entry has
position 0 (as holds for positions derived from a single document whose
outline starts on the first page). -/
theorem C2_range_sequence_invariants (entries : List OutlineEntry) (total : Int) :
    List.Pairwise
      (fun a b => a.start_page ≤ b.start_page ∧ a.end_page < b.start_page)
      (build_chapter_ranges entries total) ∧
    (entries ≠ [] →
      ∃ r, (build_chapter_ranges entries total).getLast? = some r ∧
        r.end_page = total) ∧
    ((∀ e ∈ entries, 0 ≤ e.page_index ∧ e.page_index ≤ total) →
     (∃ e ∈ entries, e.page_index = 0) →
     ∀ q : Int, (1 ≤ q ∧ q ≤ total) ↔
       ∃ r ∈ build_chapter_ranges entries total,
         r.start_page ≤ q ∧ q ≤ r.end_page) := by
  refine ⟨?_, ?_, ?_⟩
  · by_cases hne : entries = []
    · subst hne; exact List.Pairwise.nil
    · rw [build_eq_buildSorted entries total hne]
      exact buildSorted_pairwise total _ (sortEntries_sorted entries)
  · intro hne
    rw [build_eq_buildSorted entries total hne]
    exact buildSorted_getLast total _ (sortEntries_ne_nil hne)
  · intro hbounds hzero q
    obtain ⟨ez, hez, hez0⟩ := hzero
    have hne : entries ≠ [] := by
      intro hc; subst hc; cases hez
    obtain ⟨e0, rest, hs⟩ := List.exists_cons_of_ne_nil (sortEntries_ne_nil hne)
    have hperm := sortEntries_perm entries
    have hsorted := sortEntries_sorted entries
    rw [hs] at hperm hsorted
    have hez' : ez ∈ e0 :: rest := hperm.mem_iff.mpr hez
    have he0mem : e0 ∈ entries := hperm.mem_iff.mp (by simp)
    have he0lo : 0 ≤ e0.page_index := (hbounds e0 he0mem).1
    have he0hi : e0.page_index ≤ 0 := by
      have := sorted_head_min e0 rest hsorted ez hez'
      omega
    have he00 : e0.page_index = 0 := le_antisymm he0hi he0lo
    have hbounds' : ∀ e ∈ e0 :: rest, e.page_index ≤ total := by
      intro e he
      exact (hbounds e (hperm.mem_iff.mp he)).2
    have hcov := buildSorted_cover total rest e0 hsorted hbounds' q
    rw [build_eq_buildSorted entries total hne, hs]
    rw [he00] at hcov
    simpa using hcov

/-- C2 (witness): the amended invariants applied to the spec's example
entries; page 75 is covered by one of the produced ranges. -/
theorem C2_range_sequence_invariants_w :
    ∃ r ∈ build_chapter_ranges demoEntries 200,
      r.start_page ≤ 75 ∧ (75 : Int) ≤ r.end_page :=
  (((C2_range_sequence_invariants demoEntries 200).2.2 (by decide)
    ⟨⟨"A".data, 0, 0⟩, by decide, rfl⟩) 75).mp (by omega)

/-- C8 (confirmed): when two adjacent entries of the sorted sequence share a
page position, the range emitted at the first one's index has
`end_page = (position(i+1) - 1) + 1`, which is strictly less than its
`start_page = position(i) + 1`; the range is surfaced at its index unmodified
(the output length always equals the input length, so nothing is dropped). -/
theorem C8_duplicate_position_ranges (entries : List OutlineEntry) (total : Int)
    (i : Nat) (e1 e2 : OutlineEntry)
    (h1 : (sortEntries entries)[i]? = some e1)
    (h2 : (sortEntries entries)[i + 1]? = some e2)
    (heq : e2.page_index = e1.page_index) :
    (build_chapter_ranges entries total).length = entries.length ∧
    ∃ r, (build_chapter_ranges entries total)[i]? = some r ∧
      r.start_page = e1.page_index + 1 ∧
      r.end_page = e2.page_index - 1 + 1 ∧
      r.end_page < r.start_page := by
  have hne : entries ≠ [] := by
    intro hc
    subst hc
    simp [sortEntries, List.insertionSort] at h1
  constructor
  · rw [build_eq_buildSorted entries total hne, buildSorted_length]
    exact (sortEntries_perm entries).length_eq
  · rw [build_eq_buildSorted entries total hne]
    have hidx := buildSorted_getElem? total (sortEntries entries) i e1 h1
    rw [h2] at hidx
    refine ⟨⟨e1.title, e1.page_index + 1, e2.page_index - 1 + 1⟩, hidx, rfl, rfl, ?_⟩
    show e2.page_index - 1 + 1 < e1.page_index + 1
    omega

/-- C8 (witness): `build([pos 10, pos 10], total_pages = 50)` surfaces the
degenerate first range `(11, 10)` with `end_page < start_page`. -/
theorem C8_duplicate_position_ranges_w :
    ∃ r, (build_chapter_ranges [⟨"A".data, 10, 0⟩, ⟨"B".data, 10, 0⟩] 50)[0]? =
        some r ∧
      r.start_page = (10 : Int) + 1 ∧ r.end_page = (10 : Int) - 1 + 1 ∧
      r.end_page < r.start_page :=
  (C8_duplicate_position_ranges [⟨"A".data, 10, 0⟩, ⟨"B".data, 10, 0⟩] 50 0
    ⟨"A".data, 10, 0⟩ ⟨"B".data, 10, 0⟩ (by decide) (by decide) rfl).2

/-- C10 (confirmed): consecutive emitted ranges always abut
(`next.start_page = previous.end_page + 1`, degenerate ranges included); for
a non-empty input the first range starts at the minimum entry position plus
one and the last range ends at `total_pages`. -/
theorem C10_ranges_abut (entries : List OutlineEntry) (total : Int)
    (hne : entries ≠ []) :
    List.Chain' (fun a b => b.start_page = a.end_page + 1)
      (build_chapter_ranges entries total) ∧
    (∃ e ∈ entries,
      ((build_chapter_ranges entries total).head?).map ChapterRange.start_page =
        some (e.page_index + 1) ∧
      ∀ e' ∈ entries, e.page_index ≤ e'.page_index) ∧
    ∃ r, (build_chapter_ranges entries total).getLast? = some r ∧
      r.end_page = total := by
  rw [build_eq_buildSorted entries total hne]
  refine ⟨buildSorted_chain total _, ?_,
    buildSorted_getLast total _ (sortEntries_ne_nil hne)⟩
  obtain ⟨e0, rest, hs⟩ := List.exists_cons_of_ne_nil (sortEntries_ne_nil hne)
  have hperm := sortEntries_perm entries
  have hsorted := sortEntries_sorted entries
  rw [hs] at hperm hsorted
  refine ⟨e0, hperm.mem_iff.mp (by simp), ?_, ?_⟩
  · rw [hs]
    exact buildSorted_head total e0 rest
  · intro e' he'
    exact sorted_head_min e0 rest hsorted e' (hperm.mem_iff.mpr he')

/-- C10 (witness): the adjacency invariant applied to the spec's example
entries. -/
theorem C10_ranges_abut_w :
    List.Chain' (fun a b => b.start_page = a.end_page + 1)
      (build_chapter_ranges demoEntries 200) :=
  (C10_ranges_abut demoEntries 200 (by decide)).1

/-! ### Claims about the outline walker -/

theorem iterGo_invariant (store : List (Nat × ONode)) :
    ∀ (agenda : List (OItem × Nat)) (seen : List Nat),
      (∀ x ∈ seen, x ∈ (iterGo store agenda seen).2) ∧
      (∀ p ∈ (iterGo store agenda seen).1,
        p.2 ∉ seen ∧ p.2 ∈ (iterGo store agenda seen).2) ∧
      ((iterGo store agenda seen).1.map Prod.snd).Nodup := by
  intro agenda seen
  induction agenda, seen using iterGo.induct store with
  | case1 seen =>
    simp [iterGo]
  | case2 g d rest seen ih =>
    simpa [iterGo] using ih
  | case3 i d rest seen hseen ih =>
    simpa [iterGo, hseen] using ih
  | case4 i d rest seen hseen ih =>
    obtain ⟨ih1, ih2, ih3⟩ := ih
    rw [show iterGo store ((OItem.ref i, d) :: rest) seen =
      ((d, i) :: (iterGo store (childAgenda store i (d + 1) ++ rest) (i :: seen)).1,
        (iterGo store (childAgenda store i (d + 1) ++ rest) (i :: seen)).2) by
      simp [iterGo, hseen]]
    refine ⟨?_, ?_, ?_⟩
    · intro x hx
      exact ih1 x (List.mem_cons_of_mem _ hx)
    · intro p hp
      rcases List.mem_cons.mp hp with rfl | hmem
      · exact ⟨hseen, ih1 i (by simp)⟩
      · obtain ⟨hnot, hin⟩ := ih2 p hmem
        exact ⟨fun hc => hnot (List.mem_cons_of_mem _ hc), hin⟩
    · rw [List.map_cons, List.nodup_cons]
      refine ⟨?_, ih3⟩
      intro hc
      obtain ⟨p, hp, hpi⟩ := List.mem_map.mp hc
      exact (ih2 p hp).1 (by rw [hpi]; simp)

def walkDemoStore : List (Nat × ONode) :=
  [(0, ⟨some "One".data, none⟩), (1, ⟨some "Two".data, none⟩),
   (2, ⟨some "Three".data, none⟩)]

def walkDemoResolve : Nat → Option Int
  | 0 => some 3
  | 2 => some 9
  | _ => none

def walkDemoOutline : List OItem := [OItem.ref 0, OItem.ref 1, OItem.ref 2]

/-- C3 (confirmed): the walk is a total function of its (finite) input, so it
terminates on every heading tree, cyclic ones included; every distinct node
identity occurs at most once among the yielded pairs; the collected output is
sorted by page position ascending; and on a store whose single node is its
own child the walk terminates and yields that node exactly once. -/
theorem C3_walker_cycle_safety (store : List (Nat × ONode)) (outline : List OItem)
    (resolve : Nat → Option Int) :
    ((walkPairs store outline).map Prod.snd).Nodup ∧
    List.Pairwise entLE (collect_outline_entries store resolve outline) ∧
    walkPairs [(0, ⟨some "A".data, some [OItem.ref 0]⟩)] [OItem.ref 0] =
      [(0, 0)] := by
  refine ⟨?_, ?_, ?_⟩
  · exact (iterGo_invariant store (outline.map (fun i => (i, 0))) []).2.2
  · simp only [collect_outline_entries]
    exact sortEntries_sorted _
  · simp +decide [walkPairs, iterGo, childAgenda, getNode]

theorem filterMap_eq_filterMap_filter {α β : Type} (f : α → Option β)
    (q : α → Bool) (l : List α) (h : ∀ x ∈ l, q x = false → f x = none) :
    l.filterMap f = (l.filter q).filterMap f := by
  induction l with
  | nil => rfl
  | cons a l ih =>
    have ih' := ih (fun x hx => h x (List.mem_cons_of_mem _ hx))
    by_cases hq : q a = true
    · cases hfa : f a with
      | none => simp [List.filterMap_cons, List.filter_cons, hq, hfa, ih']
      | some b => simp [List.filterMap_cons, List.filter_cons, hq, hfa, ih']
    · have hfa : f a = none := h a (by simp) (by simpa using hq)
      simp [List.filterMap_cons, List.filter_cons, hq, hfa, ih']

/-- C9 (confirmed): a failing page-position resolution excludes exactly the
failing node's entries from the collected output: collecting with a resolver
that fails on identity `i0` equals collecting over the same walk with the
`i0` pairs filtered away, every other resolvable titled entry being emitted;
no failure aborts the (total) traversal.  The concrete conjunct shows a
three-node outline whose middle resolution fails yielding the other two
entries. -/
theorem C9_resolver_failure_tolerance (store : List (Nat × ONode))
    (resolve : Nat → Option Int) (outline : List OItem) (i0 : Nat) :
    (resolve i0 = none →
      collect_outline_entries store resolve outline =
        sortEntries
          (((walkPairs store outline).filter (fun p => decide (p.2 ≠ i0))).filterMap
            (emitEntry store resolve))) ∧
    collect_outline_entries walkDemoStore walkDemoResolve walkDemoOutline =
      [⟨"One".data, 3, 0⟩, ⟨"Three".data, 9, 0⟩] := by
  constructor
  · intro hr
    unfold collect_outline_entries
    congr 1
    apply filterMap_eq_filterMap_filter
    intro p _ hq
    have hp2 : p.2 = i0 := by simpa using hq
    unfold emitEntry
    rw [hp2, hr]
    split
    · rfl
    · rfl
    · rfl
  · simp +decide [collect_outline_entries, walkPairs, iterGo, childAgenda, getNode,
      emitEntry, walkDemoResolve, walkDemoStore, walkDemoOutline, sortEntries,
      List.insertionSort, List.orderedInsert, stripEnds, takeRun, isSpaceChar, entLE]

/-- C9 (witness): the tolerance equation applied to the concrete store whose
resolver fails on identity 1. -/
theorem C9_resolver_failure_tolerance_w :
    collect_outline_entries walkDemoStore walkDemoResolve walkDemoOutline =
      sortEntries
        (((walkPairs walkDemoStore walkDemoOutline).filter
            (fun p => decide (p.2 ≠ 1))).filterMap
          (emitEntry walkDemoStore walkDemoResolve)) :=
  (C9_resolver_failure_tolerance walkDemoStore walkDemoResolve
    walkDemoOutline 1).1 rfl

/-! ### Claims about the numeral classifier -/

theorem takeRun_fst_prop (p : Char → Bool) :
    ∀ l : List Char, ∀ c ∈ (takeRun p l).1, p c = true := by
  intro l
  induction l with
  | nil => intro c hc; simp [takeRun] at hc
  | cons a l ih =>
    intro c hc
    by_cases hp : p a = true
    · simp only [takeRun, hp, if_true] at hc
      rcases List.mem_cons.mp hc with rfl | hmem
      · exact hp
      · exact ih c hmem
    · simp only [takeRun, hp, if_false, Bool.false_eq_true] at hc
      simp at hc

theorem tailCapture_chars (cl : Char → Bool) (s g : List Char)
    (h : tailCapture cl s = some g) : ∀ c ∈ g, cl c = true := by
  have hsub : g = (takeRun cl (takeRun isSepChar s).2).1 := by
    unfold tailCapture at h
    split at h
    · exact absurd h (by simp)
    · split at h
      · exact (Option.some_inj.mp h).symm
      · split at h
        · exact absurd h (by simp)
        · exact (Option.some_inj.mp h).symm
  rw [hsub]
  exact takeRun_fst_prop cl _

theorem findSome?_some_src {α β : Type} (f : α → Option β) :
    ∀ (l : List α) (b : β), l.findSome? f = some b → ∃ a ∈ l, f a = some b := by
  intro l
  induction l with
  | nil => intro b h; simp at h
  | cons a l ih =>
    intro b h
    rw [List.findSome?_cons] at h
    cases hfa : f a with
    | some c =>
      rw [hfa] at h
      exact ⟨a, by simp, by rw [hfa]; exact h⟩
    | none =>
      rw [hfa] at h
      obtain ⟨x, hx, hfx⟩ := ih b h
      exact ⟨x, List.mem_cons_of_mem _ hx, hfx⟩

theorem romanVal_isSome_of_isRomanChar (c : Char) (h : isRomanChar c = true) :
    (romanVal c.toLower).isSome := by
  unfold isRomanChar at h
  simp only [Bool.or_eq_true, decide_eq_true_eq] at h
  rcases h with ((((((h | h) | h) | h) | h) | h) | h) <;> rw [h] <;> decide

theorem romanGo_isSome :
    ∀ (l : List Char) (total prev : Int), (∀ c ∈ l, (romanVal c).isSome) →
      (romanGo l total prev).isSome := by
  intro l
  induction l with
  | nil => intro t p _; simp [romanGo]
  | cons c cs ih =>
    intro t p h
    have hc := h c (by simp)
    cases hv : romanVal c with
    | none => rw [hv] at hc; simp at hc
    | some cur =>
      simp only [romanGo, hv]
      split
      · exact ih _ _ (fun x hx => h x (List.mem_cons_of_mem _ hx))
      · exact ih _ _ (fun x hx => h x (List.mem_cons_of_mem _ hx))

/-- C4 (counterexample): the claim says a non-positive decode is treated as
no match for the Roman rule, so `"Chapter IIIIIIV"` (decode `-1`, no digit
match, capture not a number word) would have to classify false; the source's
truthiness test `if converted:` accepts every nonzero integer, negative ones
included, so it classifies true. -/
theorem C4_nonpositive_decode_cex :
    is_chapter_title "Chapter IIIIIIV".data = true ∧
    reCapture isRomanChar "Chapter IIIIIIV".data = some "IIIIIIV".data ∧
    roman_to_int "IIIIIIV".data = some (-1) ∧
    ((-1 : Int) ≤ 0) ∧
    (reCapture isDigitChar "Chapter IIIIIIV".data).isSome = false ∧
    wordAccepts "Chapter IIIIIIV".data = false := by
  refine ⟨?_, ?_, ?_, ?_, ?_, ?_⟩ <;> decide

/-- C4 (amended): when the Roman-numeral regex matches, its capture consists
of Roman symbols only, so the right-to-left subtractive decode always
produces an integer; the classifier returns true whenever that decode is
nonzero (negative included), and only a decode of exactly zero is treated as
no match for the rule, classification then falling back to the digit and
number-word rules. -/
theorem C4_roman_classification (t g : List Char)
    (hg : reCapture isRomanChar t = some g) :
    (∃ v, roman_to_int g = some v) ∧
    (∀ v : Int, roman_to_int g = some v → v ≠ 0 → is_chapter_title t = true) ∧
    (roman_to_int g = some 0 →
      is_chapter_title t = ((reCapture isDigitChar t).isSome || wordAccepts t)) := by
  have hchars : ∀ c ∈ g, isRomanChar c = true := by
    obtain ⟨s, _, hf⟩ := findSome?_some_src _ (chapterHeads t) g hg
    exact tailCapture_chars isRomanChar s g hf
  have hsome : (roman_to_int g).isSome := by
    unfold roman_to_int
    apply romanGo_isSome
    intro c hc
    simp only [List.mem_reverse, List.mem_map] at hc
    obtain ⟨c0, hc0, rfl⟩ := hc
    exact romanVal_isSome_of_isRomanChar c0 (hchars c0 hc0)
  refine ⟨Option.isSome_iff_exists.mp hsome, ?_, ?_⟩
  · intro v hv hv0
    unfold is_chapter_title
    rw [hg]
    by_cases hd : (reCapture isDigitChar t).isSome
    · simp [hd]
    · simp [hd, hv, hv0]
  · intro hv
    unfold is_chapter_title
    rw [hg]
    by_cases hd : (reCapture isDigitChar t).isSome
    · simp [hd]
    · simp [hd, hv]

/-- C4 (witness): `"Chapter IV"` (decode 4) and the non-canonical
`"Chapter IIII"` (decode 4) both classify true, by the amended rule. -/
theorem C4_roman_classification_w :
    is_chapter_title "Chapter IV".data = true ∧
    is_chapter_title "Chapter IIII".data = true :=
  ⟨(C4_roman_classification "Chapter IV".data "IV".data (by decide)).2.1 4
      (by decide) (by decide),
   (C4_roman_classification "Chapter IIII".data "IIII".data (by decide)).2.1 4
      (by decide) (by decide)⟩

/-! ### Claims about the chapter selector -/

theorem foldlMin_le (l : List OutlineEntry) :
    ∀ a : Nat, l.foldl (fun acc x => min acc x.depth) a ≤ a ∧
      ∀ x ∈ l, l.foldl (fun acc x => min acc x.depth) a ≤ x.depth := by
  induction l with
  | nil => intro a; exact ⟨le_refl a, by simp⟩
  | cons y l ih =>
    intro a
    rw [List.foldl_cons]
    obtain ⟨h1, h2⟩ := ih (min a y.depth)
    constructor
    · exact le_trans h1 (min_le_left _ _)
    · intro x hx
      rcases List.mem_cons.mp hx with rfl | hmem
      · exact le_trans h1 (min_le_right _ _)
      · exact h2 x hmem

theorem foldlMin_mem (l : List OutlineEntry) :
    ∀ a : Nat, l.foldl (fun acc x => min acc x.depth) a = a ∨
      ∃ x ∈ l, l.foldl (fun acc x => min acc x.depth) a = x.depth := by
  induction l with
  | nil => intro a; exact Or.inl rfl
  | cons y l ih =>
    intro a
    rw [List.foldl_cons]
    rcases ih (min a y.depth) with h | ⟨x, hx, hfx⟩
    · rcases min_choice a y.depth with hm | hm
      · left; rw [h, hm]
      · right; exact ⟨y, by simp, by rw [h, hm]⟩
    · right; exact ⟨x, List.mem_cons_of_mem _ hx, hfx⟩

theorem pick_eq_filter_of_ne (entries : List OutlineEntry)
    (h : entries.filter (fun e => is_chapter_title e.title) ≠ []) :
    pick_chapter_entries entries =
      entries.filter (fun e => is_chapter_title e.title) := by
  unfold pick_chapter_entries
  simp [List.isEmpty_iff, h]

theorem pick_eq_min_filter (e : OutlineEntry) (rest : List OutlineEntry)
    (h : (e :: rest).filter (fun x => is_chapter_title x.title) = []) :
    pick_chapter_entries (e :: rest) =
      (e :: rest).filter (fun x => decide (x.depth = minDepthOf e rest)) := by
  unfold pick_chapter_entries
  simp [List.isEmpty_iff, h]

def selDemoEntries : List OutlineEntry :=
  [⟨"Intro".data, 0, 1⟩, ⟨"Overview".data, 4, 1⟩, ⟨"Details".data, 6, 2⟩]

/-- C5 (confirmed): the selector returns a subsequence of its input; it
returns the classifier-accepted subsequence whenever that is non-empty,
returns empty on empty input, and otherwise returns exactly the entries of
minimum depth; on classifier-free entries of depths 1, 1, 2 it returns
exactly the two depth-1 entries. -/
theorem C5_selector_policy (entries : List OutlineEntry) :
    (pick_chapter_entries entries).Sublist entries ∧
    (entries.filter (fun e => is_chapter_title e.title) ≠ [] →
      pick_chapter_entries entries =
        entries.filter (fun e => is_chapter_title e.title)) ∧
    (entries = [] → pick_chapter_entries entries = []) ∧
    (entries.filter (fun e => is_chapter_title e.title) = [] → entries ≠ [] →
      ∃ m : Nat, (∃ e ∈ entries, e.depth = m) ∧ (∀ e ∈ entries, m ≤ e.depth) ∧
        pick_chapter_entries entries =
          entries.filter (fun e => decide (e.depth = m))) ∧
    pick_chapter_entries selDemoEntries =
      [⟨"Intro".data, 0, 1⟩, ⟨"Overview".data, 4, 1⟩] := by
  refine ⟨?_, ?_, ?_, ?_, by decide⟩
  · by_cases hch : entries.filter (fun e => is_chapter_title e.title) = []
    · cases entries with
      | nil => rw [pick_nil]
      | cons e rest =>
        rw [pick_eq_min_filter e rest hch]
        exact List.filter_sublist _
    · rw [pick_eq_filter_of_ne entries hch]
      exact List.filter_sublist _
  · intro hch
    exact pick_eq_filter_of_ne entries hch
  · intro h
    subst h
    rw [pick_nil]
  · intro hch hne
    obtain ⟨e, rest, rfl⟩ := List.exists_cons_of_ne_nil hne
    refine ⟨minDepthOf e rest, ?_, ?_, pick_eq_min_filter e rest hch⟩
    · rcases foldlMin_mem rest e.depth with h | ⟨x, hx, hfx⟩
      · exact ⟨e, by simp, h.symm⟩
      · exact ⟨x, List.mem_cons_of_mem _ hx, hfx.symm⟩
    · intro x hx
      rcases List.mem_cons.mp hx with rfl | hmem
      · exact (foldlMin_le rest x.depth).1
      · exact (foldlMin_le rest e.depth).2 x hmem

/-- C5 (witness): the fallback case of the policy applied to the depth
1, 1, 2 example. -/
theorem C5_selector_policy_w :
    ∃ m : Nat, (∃ e ∈ selDemoEntries, e.depth = m) ∧
      (∀ e ∈ selDemoEntries, m ≤ e.depth) ∧
      pick_chapter_entries selDemoEntries =
        selDemoEntries.filter (fun e => decide (e.depth = m)) :=
  (C5_selector_policy selDemoEntries).2.2.2.1 (by decide) (by decide)

/-! ### Claims about the selection parsing -/

/-- Refinement-side description of C6's success behaviour, following the
claim's words: one pair per token in token order, hyphenless token `n`
yielding `(n, n)`, a pair with `start > end` silently swapped, empty tokens
discarded, no deduplication and no merging, no positivity filtering. -/
def specTokenPair (t : List Char) : Option (Int × Int) :=
  match splitFirstHyphen t with
  | some (a, b) =>
    match pyInt a, pyInt b with
    | some s, some e => some (if s > e then (e, s) else (s, e))
    | _, _ => none
  | none => (pyInt t).map (fun n => (n, n))

def specPairsOfTokens : List (List Char) → Option (List (Int × Int))
  | [] => some []
  | t :: ts =>
    if t.isEmpty then specPairsOfTokens ts
    else
      match specTokenPair t, specPairsOfTokens ts with
      | some p, some ps => some (p :: ps)
      | _, _ => none

theorem specTokenPair_of_parseToken_ok (t : List Char) (p : Int × Int)
    (h : parseToken t = Except.ok p) : specTokenPair t = some p := by
  unfold parseToken tokenInts at h
  unfold specTokenPair
  cases hsp : splitFirstHyphen t with
  | some ab =>
    obtain ⟨a, b⟩ := ab
    simp only [hsp] at h ⊢
    cases ha : pyInt a with
    | none => simp only [ha] at h; simp at h
    | some s =>
      cases hb : pyInt b with
      | none => simp only [ha, hb] at h; simp at h
      | some e2 =>
        simp only [ha, hb] at h ⊢
        by_cases hpos : s < 1 ∨ e2 < 1
        · rw [if_pos hpos] at h
          simp at h
        · rw [if_neg hpos] at h
          by_cases hgt : s > e2
          · rw [if_pos hgt] at h
            injection h with h2
            rw [if_pos hgt, h2]
          · rw [if_neg hgt] at h
            injection h with h2
            rw [if_neg hgt, h2]
  | none =>
    simp only [hsp] at h ⊢
    cases hn : pyInt t with
    | none => simp only [hn] at h; simp at h
    | some n =>
      simp only [hn, Option.map_some] at h ⊢
      by_cases hpos : n < 1 ∨ n < 1
      · rw [if_pos hpos] at h
        simp at h
      · rw [if_neg hpos] at h
        rw [if_neg (by simp : ¬ (n > n))] at h
        injection h with h2
        show some (n, n) = some p
        rw [h2]

theorem specPairs_of_parseTokens_ok :
    ∀ (toks : List (List Char)) (l : List (Int × Int)),
      parseTokens toks = Except.ok l → specPairsOfTokens toks = some l := by
  intro toks
  induction toks with
  | nil =>
    intro l h
    unfold parseTokens at h
    unfold specPairsOfTokens
    injection h with h2
    rw [← h2]
  | cons t ts ih =>
    intro l h
    unfold parseTokens at h
    unfold specPairsOfTokens
    by_cases he : t.isEmpty
    · rw [if_pos he] at h ⊢
      exact ih l h
    · rw [if_neg he] at h ⊢
      cases hp : parseToken t with
      | error e => simp only [hp] at h; simp at h
      | ok p =>
        simp only [hp] at h
        cases hr : parseTokens ts with
        | error e => simp only [hr] at h; simp at h
        | ok rest =>
          simp only [hr] at h
          injection h with h2
          simp only [specTokenPair_of_parseToken_ok t p hp, ih rest hr]
          rw [h2]

/-- C6 (confirmed): every successful parse returns exactly the claim-side
pair list: one `(start, end)` pair per non-empty token in token order (so
neither deduplicated nor merged), a hyphenless token `n` yielding `(n, n)`
and a reversed pair silently swapped; the concrete conjuncts exercise the
spec example, duplicates, adjacent unmerged ranges and a swap. -/
theorem C6_parse_success_behaviour :
    (∀ (s : List Char) (l : List (Int × Int)),
      parse_selection s = Except.ok l →
      specPairsOfTokens (splitOnComma (removeSpaces s)) = some l) ∧
    parse_selection "1,3-5, 2".data = Except.ok [(1, 1), (3, 5), (2, 2)] ∧
    parse_selection "2,2".data = Except.ok [(2, 2), (2, 2)] ∧
    parse_selection "1-2,2-3".data = Except.ok [(1, 2), (2, 3)] ∧
    parse_selection "5-3".data = Except.ok [(3, 5)] := by
  refine ⟨?_, by decide, by decide, by decide, by decide⟩
  intro s l h
  unfold parse_selection at h
  cases hp : parseTokens (splitOnComma (removeSpaces s)) with
  | error e => simp only [hp] at h; simp at h
  | ok ranges =>
    simp only [hp] at h
    by_cases hr : ranges.isEmpty
    · rw [if_pos hr] at h; simp at h
    · rw [if_neg hr] at h
      injection h with h2
      rw [← h2]
      exact specPairs_of_parseTokens_ok _ ranges hp

/-- C6 (witness): the success characterization applied to the spec's example
input. -/
theorem C6_parse_success_behaviour_w :
    specPairsOfTokens (splitOnComma (removeSpaces "1,3-5, 2".data)) =
      some [(1, 1), (3, 5), (2, 2)] :=
  C6_parse_success_behaviour.1 "1,3-5, 2".data [(1, 1), (3, 5), (2, 2)]
    (by decide)

/-- A (nonempty) token whose integer extraction raises `ValueError`. -/
def tokenIntFails (t : List Char) : Bool :=
  !t.isEmpty &&
    (match tokenInts t with
     | Except.error _ => true
     | Except.ok _ => false)

/-- A (nonempty) token whose integers parse but include a value below 1. -/
def tokenNonPositive (t : List Char) : Bool :=
  !t.isEmpty &&
    (match tokenInts t with
     | Except.ok se => decide (se.1 < 1) || decide (se.2 < 1)
     | Except.error _ => false)

theorem tokenInts_error_msg (t : List Char) (e : String)
    (h : tokenInts t = Except.error e) : e = msgUse := by
  unfold tokenInts at h
  cases hsp : splitFirstHyphen t with
  | some ab =>
    obtain ⟨a, b⟩ := ab
    simp only [hsp] at h
    cases ha : pyInt a with
    | none =>
      simp only [ha] at h
      injection h with h2
      exact h2.symm
    | some s =>
      cases hb : pyInt b with
      | none =>
        simp only [ha, hb] at h
        injection h with h2
        exact h2.symm
      | some e2 => simp only [ha, hb] at h; simp at h
  | none =>
    simp only [hsp] at h
    cases hn : pyInt t with
    | none =>
      simp only [hn] at h
      injection h with h2
      exact h2.symm
    | some n => simp only [hn] at h; simp at h

theorem parseTokens_ok_no_bad :
    ∀ (toks : List (List Char)) (l : List (Int × Int)),
      parseTokens toks = Except.ok l →
      toks.any tokenIntFails = false ∧ toks.any tokenNonPositive = false := by
  intro toks
  induction toks with
  | nil => intro l _; exact ⟨rfl, rfl⟩
  | cons t ts ih =>
    intro l h
    unfold parseTokens at h
    by_cases he : t.isEmpty
    · rw [if_pos he] at h
      obtain ⟨h1, h2⟩ := ih l h
      constructor
      · simp [List.any_cons, tokenIntFails, he, h1]
      · simp [List.any_cons, tokenNonPositive, he, h2]
    · rw [if_neg he] at h
      cases hp : parseToken t with
      | error e0 => simp only [hp] at h; simp at h
      | ok p =>
        simp only [hp] at h
        cases hr : parseTokens ts with
        | error e1 => simp only [hr] at h; simp at h
        | ok rest =>
          obtain ⟨h1, h2⟩ := ih rest hr
          unfold parseToken at hp
          cases hti : tokenInts t with
          | error e1 => simp only [hti] at hp; simp at hp
          | ok se =>
            simp only [hti] at hp
            by_cases hpos : se.1 < 1 ∨ se.2 < 1
            · rw [if_pos hpos] at hp; simp at hp
            · push_neg at hpos
              constructor
              · simp [List.any_cons, tokenIntFails, hti, h1]
              · simp only [List.any_cons, Bool.or_eq_false_iff]
                refine ⟨?_, h2⟩
                simp [tokenNonPositive, hti]
                omega

theorem parseTokens_ok_of_no_bad :
    ∀ toks : List (List Char),
      toks.any tokenIntFails = false → toks.any tokenNonPositive = false →
      ∃ l, parseTokens toks = Except.ok l := by
  intro toks
  induction toks with
  | nil => intro _ _; exact ⟨[], rfl⟩
  | cons t ts ih =>
    intro h1 h2
    rw [List.any_cons, Bool.or_eq_false_iff] at h1 h2
    obtain ⟨l, hl⟩ := ih h1.2 h2.2
    unfold parseTokens
    by_cases he : t.isEmpty
    · rw [if_pos he]
      exact ⟨l, hl⟩
    · rw [if_neg he]
      cases hti : tokenInts t with
      | error e0 =>
        exfalso
        have : tokenIntFails t = true := by simp [tokenIntFails, he, hti]
        rw [h1.1] at this
        cases this
      | ok se =>
        have hpos : ¬ (se.1 < 1 ∨ se.2 < 1) := by
          intro hc
          have : tokenNonPositive t = true := by
            simp only [tokenNonPositive, hti]
            simp [he]
            omega
          rw [h2.1] at this
          cases this
        have hp : parseToken t =
            Except.ok (if se.1 > se.2 then (se.2, se.1) else se) := by
          unfold parseToken
          simp only [hti]
          rw [if_neg hpos]
          by_cases hgt : se.1 > se.2
          · rw [if_pos hgt, if_pos hgt]
          · rw [if_neg hgt, if_neg hgt]
        simp only [hp, hl]
        exact ⟨_, rfl⟩

theorem parseTokens_error_iff (toks : List (List Char)) :
    (∃ e, parseTokens toks = Except.error e) ↔
      (toks.any tokenIntFails = true ∨ toks.any tokenNonPositive = true) := by
  constructor
  · rintro ⟨e, h⟩
    by_contra hno
    push_neg at hno
    obtain ⟨l, hl⟩ := parseTokens_ok_of_no_bad toks
      (by simpa using hno.1) (by simpa using hno.2)
    rw [hl] at h
    cases h
  · intro hor
    cases hres : parseTokens toks with
    | error e => exact ⟨e, rfl⟩
    | ok l =>
      exfalso
      obtain ⟨h1, h2⟩ := parseTokens_ok_no_bad toks l hres
      rcases hor with h' | h'
      · rw [h1] at h'; cases h'
      · rw [h2] at h'; cases h'

theorem parseTokens_error_msgs :
    ∀ (toks : List (List Char)) (e : String),
      parseTokens toks = Except.error e → e = msgUse ∨ e = msgPositive := by
  intro toks
  induction toks with
  | nil => intro e h; simp [parseTokens] at h
  | cons t ts ih =>
    intro e h
    unfold parseTokens at h
    by_cases he : t.isEmpty
    · rw [if_pos he] at h
      exact ih e h
    · rw [if_neg he] at h
      cases hp : parseToken t with
      | error e0 =>
        simp only [hp] at h
        injection h with h2
        subst h2
        unfold parseToken at hp
        cases hti : tokenInts t with
        | error e1 =>
          simp only [hti] at hp
          injection hp with h3
          subst h3
          exact Or.inl (tokenInts_error_msg t _ hti)
        | ok se =>
          simp only [hti] at hp
          by_cases hpos : se.1 < 1 ∨ se.2 < 1
          · rw [if_pos hpos] at hp
            injection hp with h3
            exact Or.inr h3.symm
          · rw [if_neg hpos] at hp
            by_cases hgt : se.1 > se.2
            · rw [if_pos hgt] at hp; simp at hp
            · rw [if_neg hgt] at hp; simp at hp
      | ok p =>
        simp only [hp] at h
        cases hr : parseTokens ts with
        | error e1 =>
          simp only [hr] at h
          injection h with h2
          subst h2
          exact ih e1 hr
        | ok rest => simp only [hr] at h; simp at h

theorem parseTokens_ok_nil_iff :
    ∀ (toks : List (List Char)) (l : List (Int × Int)),
      parseTokens toks = Except.ok l →
      (l = [] ↔ toks.all (fun t => t.isEmpty) = true) := by
  intro toks
  induction toks with
  | nil =>
    intro l h
    unfold parseTokens at h
    injection h with h2
    subst h2
    simp
  | cons t ts ih =>
    intro l h
    unfold parseTokens at h
    by_cases he : t.isEmpty
    · rw [if_pos he] at h
      rw [List.all_cons, he]
      simpa using ih l h
    · rw [if_neg he] at h
      cases hp : parseToken t with
      | error e0 => simp only [hp] at h; simp at h
      | ok p =>
        simp only [hp] at h
        cases hr : parseTokens ts with
        | error e1 => simp only [hr] at h; simp at h
        | ok rest =>
          simp only [hr] at h
          injection h with h2
          subst h2
          rw [List.all_cons]
          simp [he]

/-- C7 (confirmed): `parse_selection` fails exactly when some non-empty token
has a non-integer part, or some non-empty token parses to a value below 1, or
every token is empty; the error is always one of the three messages; a
non-integer token raises the "use chapter numbers" error, a value below 1 the
positivity error, and an empty result the "no chapter numbers" error, as the
concrete conjuncts for `"0-2"` and `""` show. -/
theorem C7_parse_failure_behaviour :
    (∀ s : List Char,
      (∃ e, parse_selection s = Except.error e) ↔
        ((splitOnComma (removeSpaces s)).any tokenIntFails = true ∨
         (splitOnComma (removeSpaces s)).any tokenNonPositive = true ∨
         (splitOnComma (removeSpaces s)).all (fun t => t.isEmpty) = true)) ∧
    (∀ (s : List Char) (e : String), parse_selection s = Except.error e →
      e = msgUse ∨ e = msgPositive ∨ e = msgNoNumbers) ∧
    parse_selection "0-2".data = Except.error msgPositive ∧
    parse_selection "".data = Except.error msgNoNumbers := by
  refine ⟨?_, ?_, by decide, by decide⟩
  · intro s
    constructor
    · rintro ⟨e, h⟩
      unfold parse_selection at h
      cases hp : parseTokens (splitOnComma (removeSpaces s)) with
      | error e0 =>
        rcases (parseTokens_error_iff _).mp ⟨e0, hp⟩ with h' | h'
        · exact Or.inl h'
        · exact Or.inr (Or.inl h')
      | ok ranges =>
        simp only [hp] at h
        by_cases hr : ranges.isEmpty
        · exact Or.inr (Or.inr
            ((parseTokens_ok_nil_iff _ ranges hp).mp (List.isEmpty_iff.mp hr)))
        · rw [if_neg hr] at h; simp at h
    · intro hor
      rcases hor with h' | h' | h'
      · obtain ⟨e, he⟩ := (parseTokens_error_iff _).mpr (Or.inl h')
        refine ⟨e, ?_⟩
        unfold parse_selection
        simp only [he]
      · obtain ⟨e, he⟩ := (parseTokens_error_iff _).mpr (Or.inr h')
        refine ⟨e, ?_⟩
        unfold parse_selection
        simp only [he]
      · have hall := List.all_eq_true.mp h'
        have h1 : (splitOnComma (removeSpaces s)).any tokenIntFails = false := by
          rw [List.any_eq_false]
          intro x hx
          simp [tokenIntFails, by simpa using hall x hx]
        have h2 : (splitOnComma (removeSpaces s)).any tokenNonPositive = false := by
          rw [List.any_eq_false]
          intro x hx
          simp [tokenNonPositive, by simpa using hall x hx]
        obtain ⟨l, hl⟩ := parseTokens_ok_of_no_bad _ h1 h2
        have hnil : l = [] := (parseTokens_ok_nil_iff _ l hl).mpr h'
        subst hnil
        refine ⟨msgNoNumbers, ?_⟩
        unfold parse_selection
        simp only [hl]
        rfl
  · intro s e h
    unfold parse_selection at h
    cases hp : parseTokens (splitOnComma (removeSpaces s)) with
    | error e0 =>
      simp only [hp] at h
      injection h with h2
      subst h2
      rcases parseTokens_error_msgs _ e0 hp with h' | h'
      · exact Or.inl h'
      · exact Or.inr (Or.inl h')
    | ok ranges =>
      simp only [hp] at h
      by_cases hr : ranges.isEmpty
      · rw [if_pos hr] at h
        injection h with h2
        exact Or.inr (Or.inr h2.symm)
      · rw [if_neg hr] at h; simp at h

/-- C7 (witness): the failure characterization applied to the non-integer
input `"x"`. -/
theorem C7_parse_failure_behaviour_w :
    ∃ e, parse_selection "x".data = Except.error e :=
  (C7_parse_failure_behaviour.1 "x".data).mpr (Or.inl (by decide))

end PdfToText
